import Mathlib

/-!
A verification development for the testplanner repository.

The definitions below are shallow embeddings of the data model and the
algorithms in src/testplanner/Testplan.py: the percentage formatter
`get_percentage`, tag filtering `has_tags`, the wildcard substitution engine
`do_substitutions`, the result reconciliation engine
`Testplan.map_test_results`, and the testplan loader / importer
`parse_testplan`.  Python floats in `get_percentage` are modelled by exact
natural-number arithmetic (value/total*100 as an exact rational), which
agrees with the source on every value mentioned by a theorem; Python's
unbounded import loop is modelled with an explicit fuel parameter.
-/

namespace Testplanner

/-- Boolean membership of a string in a list (models Python `x in xs`). -/
def memS (x : String) : List String → Bool
  | [] => false
  | y :: ys => x == y || memS x ys

/-- Boolean membership of a natural number in a list (models Python `x in xs`). -/
def memN (x : Nat) : List Nat → Bool
  | [] => false
  | y :: ys => x == y || memN x ys

/-- First-occurrence deduplication; models collecting list elements into a
Python set/dict (membership is all that the algorithms observe). -/
def dedupFirstAux (seen : List String) : List String → List String
  | [] => []
  | x :: xs => if memS x seen then dedupFirstAux seen xs else x :: dedupFirstAux (x :: seen) xs

/-- Decimal digits of a natural number (fuel-based so it reduces in the kernel). -/
def natDigitsAux : Nat → Nat → List Char
  | 0, _ => []
  | fuel + 1, n =>
    if n < 10 then [Nat.digitChar n]
    else natDigitsAux fuel (n / 10) ++ [Nat.digitChar (n % 10)]

/-- Decimal rendering of a natural number, as Python str() produces it. -/
def natToStr (n : Nat) : String := String.mk (natDigitsAux (n + 1) n)

/-- Model of `get_percentage` (Testplan.py lines 42-49).  Python computes
`perc = value / total * 100` in floating point; this model computes with the
exact rational 100*value/total.  Note the `perc.is_integer()` branch of the
source formats the float itself (`f"{perc}%"`), which prints a trailing
`.0`; the final branch is `round(perc, 1)` (half-to-even) rendered with one
decimal place. -/
def get_percentage (value total : Nat) : String :=
  if total = 0 then "--%"
  else if value * 100 = total * 100 then "100%"
  else if total ∣ value * 100 then natToStr (value * 100 / total) ++ ".0%"
  else
    let q := value * 1000 / total
    let r := value * 1000 % total
    let rounded :=
      if total < 2 * r then q + 1
      else if 2 * r < total then q
      else if q % 2 = 0 then q else q + 1
    natToStr (rounded / 10) ++ "." ++ natToStr (rounded % 10) ++ "%"

/-- Python `tag.startswith("-")` for a requested tag. -/
def tagIsExcluded (t : String) : Bool :=
  match t.data with
  | c :: _ => c == '-'
  | [] => false

/-- Python `tag[1:]`. -/
def tagRest (t : String) : String := String.mk (t.data.drop 1)

/-- Model of `Element.has_tags` (Testplan.py lines 216-236).  `ownTags` are
the element's own tags, `tags` the requested filter list; a requested tag
starting with a dash excludes elements carrying the rest of the tag. -/
def has_tags (ownTags : List String) (tags : List String) : Bool :=
  if tags.isEmpty then true
  else tags.all fun tag =>
    if tagIsExcluded tag then ! memS (tagRest tag) ownTags
    else memS tag ownTags

/-- The left brace character, written by code point to keep it out of literals. -/
def lbrace : Char := Char.ofNat 123

/-- The right brace character, written by code point. -/
def rbrace : Char := Char.ofNat 125

/-- The regex character class `[A-Za-z0-9_]` used for wildcard names. -/
def wordChar (c : Char) : Bool := c.isAlphanum || c == '_'

/-- Model of `re.findall` for the wildcard pattern of
`Testpoint.do_substitutions` (Testplan.py line 312): scan left to right and
return each brace-delimited word-character run, leftmost-first and
non-overlapping, exactly as the Python regex engine does. -/
def findAllAux : Nat → List Char → List String
  | 0, _ => []
  | _ + 1, [] => []
  | fuel + 1, c :: rest =>
    if c == lbrace then
      match rest.dropWhile wordChar with
      | d :: rest2 =>
        if d == rbrace && !(rest.takeWhile wordChar).isEmpty then
          String.mk (rest.takeWhile wordChar) :: findAllAux fuel rest2
        else findAllAux fuel rest
      | [] => findAllAux fuel rest
    else findAllAux fuel rest

/-- The wildcard names occurring in a test pattern, in order of appearance
(with repeats), as the source's `re.findall` returns them. -/
def find_placeholders (s : String) : List String := findAllAux s.data.length s.data

/-- Replace every occurrence of `pat` left to right (fuel-based helper). -/
def replaceAux (pat rep : List Char) : Nat → List Char → List Char
  | 0, s => s
  | _ + 1, [] => []
  | fuel + 1, c :: rest =>
    if pat.isPrefixOf (c :: rest) then
      rep ++ replaceAux pat rep fuel ((c :: rest).drop pat.length)
    else c :: replaceAux pat rep fuel rest

/-- Model of Python `str.replace`: replace every non-overlapping occurrence,
scanning left to right. -/
def py_replace (s pat rep : String) : String :=
  String.mk (replaceAux pat.data rep.data s.data.length s.data)

/-- A substitution value harvested from the testplan document: either a
scalar or a list of scalars. -/
inductive SubstVal where
  | scalar : String → SubstVal
  | values : List String → SubstVal
deriving DecidableEq, Repr

/-- The wildcard-to-value mapping passed to `do_substitutions`. -/
abbrev Substitutions := List (String × SubstVal)

/-- Python `substitutions.get(item, "")`: a wildcard absent from the mapping
resolves to the empty string. -/
def substGet (subs : Substitutions) (k : String) : SubstVal :=
  match subs with
  | [] => SubstVal.scalar ""
  | (k2, v) :: rest => if k == k2 then v else substGet rest k

/-- Python `value if isinstance(value, list) else [value]`. -/
def valueList : SubstVal → List String
  | SubstVal.scalar s => [s]
  | SubstVal.values vs => vs

/-- Concatenation of the images of a list, in order (a list comprehension
with two generators is `concatMap` over the outer one). -/
def concatMap (f : α → List β) : List α → List β
  | [] => []
  | x :: xs => f x ++ concatMap f xs

/-- One test pattern expanded against the substitutions: the body of the
loop of `Testpoint.do_substitutions` (Testplan.py lines 311-327).  The
wildcard names are deduplicated keeping first appearance (the Python dict
comprehension), and each one multiplies the resolved list by its values. -/
def expand_pattern (subs : Substitutions) (test : String) : List String :=
  let ph := find_placeholders test
  if ph.isEmpty then [test]
  else
    (dedupFirstAux [] ph).foldl
      (fun resolved item =>
        concatMap
          (fun t => (valueList (substGet subs item)).map
            (fun v => py_replace t (String.mk (lbrace :: item.data ++ [rbrace])) v))
          resolved)
      [test]

/-- Model of `Testpoint.do_substitutions` applied to the whole `tests`
list: patterns without wildcards pass through unchanged, the others are
replaced by their expansions, in order. -/
def do_substitutions (subs : Substitutions) (tests : List String) : List String :=
  concatMap (expand_pattern subs) tests

lemma memS_iff (x : String) (l : List String) : memS x l = true ↔ x ∈ l := by
  induction l with
  | nil => simp [memS]
  | cons y ys ih => simp [memS, ih, Bool.or_eq_true, beq_iff_eq]

lemma natDigitsAux_ne_nil (fuel n : Nat) (h : fuel ≠ 0) : natDigitsAux fuel n ≠ [] := by
  cases fuel with
  | zero => exact absurd rfl h
  | succ f =>
    simp only [natDigitsAux]
    split
    · simp
    · simp

lemma natToStr_length_pos (n : Nat) : 0 < (natToStr n).length := by
  have h := natDigitsAux_ne_nil (n + 1) n (Nat.succ_ne_zero n)
  have : (natDigitsAux (n + 1) n).length ≠ 0 := by
    intro hc
    exact h (List.length_eq_zero.mp hc)
  exact Nat.pos_of_ne_zero this

lemma get_percentage_eq_dashes_iff (value total : Nat) :
    get_percentage value total = "--%" ↔ total = 0 := by
  constructor
  · intro h
    by_contra ht
    rw [get_percentage, if_neg ht] at h
    split at h
    · exact absurd (congrArg String.length h) (by decide)
    · split at h
      · have hlen := congrArg String.length h
        rw [String.length_append] at hlen
        have hp := natToStr_length_pos (value * 100 / total)
        have e1 : (".0%").length = 3 := by decide
        have e4 : ("--%").length = 3 := by decide
        omega
      · have hlen := congrArg String.length h
        simp only [String.length_append] at hlen
        have h1 := natToStr_length_pos
          ((if total < 2 * (value * 1000 % total) then value * 1000 / total + 1
            else if 2 * (value * 1000 % total) < total then value * 1000 / total
            else if value * 1000 / total % 2 = 0 then value * 1000 / total
            else value * 1000 / total + 1) / 10)
        have h2 := natToStr_length_pos
          ((if total < 2 * (value * 1000 % total) then value * 1000 / total + 1
            else if 2 * (value * 1000 % total) < total then value * 1000 / total
            else if value * 1000 / total % 2 = 0 then value * 1000 / total
            else value * 1000 / total + 1) % 10)
        have e2 : (".").length = 1 := by decide
        have e3 : ("%").length = 1 := by decide
        have e4 : ("--%").length = 3 := by decide
        omega
  · intro h
    rw [get_percentage, if_pos h]

lemma get_percentage_self (t : Nat) : get_percentage (t + 1) (t + 1) = "100%" := by
  rw [get_percentage, if_neg (Nat.succ_ne_zero t), if_pos rfl]

lemma get_percentage_integer (q t : Nat) :
    get_percentage ((q + 2) * (t + 1)) (t + 1) = natToStr ((q + 2) * 100) ++ ".0%" := by
  rw [get_percentage, if_neg (Nat.succ_ne_zero t)]
  have hne : (q + 2) * (t + 1) * 100 ≠ (t + 1) * 100 := by
    intro h
    have h100 := Nat.eq_of_mul_eq_mul_right (by omega : 0 < 100) h
    have := Nat.eq_of_mul_eq_mul_right (Nat.succ_pos t)
      (by linarith [h100] : (q + 2) * (t + 1) = 1 * (t + 1))
    omega
  rw [if_neg hne]
  have hdvd : (t + 1) ∣ (q + 2) * (t + 1) * 100 := ⟨(q + 2) * 100, by ring⟩
  rw [if_pos hdvd]
  congr 1
  congr 1
  rw [Nat.mul_comm (q + 2) (t + 1), Nat.mul_assoc]
  exact Nat.mul_div_cancel_left _ (Nat.succ_pos t)

/-- C5 counterexample: the source renders an integer (non-100) percentage by
printing the Python float itself, so `get_percentage(2, 4)` is `"50.0%"`,
not the `"50%"` the claim states. -/
theorem c5_counterexample : get_percentage 2 4 = "50.0%" ∧ "50.0%" ≠ "50%" := by
  exact ⟨by decide, by decide⟩

/-- C5 (amended): `get_percentage(value, total)` returns `"--%"` if and only
if `total = 0`; it renders `"100%"` when the percentage is exactly 100; when
the percentage is an integer other than 100 it renders the integer followed
by a trailing `".0%"` (not a bare integer); otherwise one decimal place.  In
particular `get_percentage(0,0) = "--%"`, `get_percentage(1,1) = "100%"`,
`get_percentage(1,3) = "33.3%"`, and `get_percentage(2,4) = "50.0%"`. -/
theorem c5_percentage_formatting :
    (∀ value total, (get_percentage value total = "--%") ↔ total = 0)
    ∧ (∀ t, get_percentage (t + 1) (t + 1) = "100%")
    ∧ (∀ q t, get_percentage ((q + 2) * (t + 1)) (t + 1)
        = natToStr ((q + 2) * 100) ++ ".0%")
    ∧ get_percentage 0 0 = "--%"
    ∧ get_percentage 1 1 = "100%"
    ∧ get_percentage 1 3 = "33.3%"
    ∧ get_percentage 2 4 = "50.0%" := by
  exact ⟨get_percentage_eq_dashes_iff, get_percentage_self, get_percentage_integer,
    by decide, by decide, by decide, by decide⟩

lemma concatMap_length_const (f : α → List β) (n : Nat) (l : List α)
    (h : ∀ x ∈ l, (f x).length = n) : (concatMap f l).length = l.length * n := by
  induction l with
  | nil => simp [concatMap]
  | cons x xs ih =>
    simp only [concatMap, List.length_append, List.length_cons]
    rw [h x (by simp), ih (fun y hy => h y (by simp [hy]))]
    ring

lemma foldl_expand_length (subs : Substitutions) (keys : List String) :
    ∀ init : List String,
    (keys.foldl
      (fun resolved item =>
        concatMap
          (fun t => (valueList (substGet subs item)).map
            (fun v => py_replace t (String.mk (lbrace :: item.data ++ [rbrace])) v))
          resolved)
      init).length
      = init.length * (keys.map (fun k => (valueList (substGet subs k)).length)).prod := by
  induction keys with
  | nil => intro init; simp
  | cons k ks ih =>
    intro init
    simp only [List.foldl_cons, List.map_cons, List.prod_cons]
    rw [ih]
    rw [concatMap_length_const _ ((valueList (substGet subs k)).length) _ (fun x _ => by simp)]
    ring

lemma expand_pattern_length (subs : Substitutions) (test : String) :
    (expand_pattern subs test).length
      = ((dedupFirstAux [] (find_placeholders test)).map
          (fun k => (valueList (substGet subs k)).length)).prod := by
  rw [expand_pattern]
  split
  · rename_i h
    have hnil : find_placeholders test = [] := by
      simpa [List.isEmpty_iff] using h
    simp [hnil, dedupFirstAux]
  · rw [foldl_expand_length subs]
    simp

/-- C6 (confirmed): `Testpoint.do_substitutions` expands each pattern
combinatorially over its distinct wildcards in first-appearance order: a
pattern with no wildcard passes through unchanged; the number of expansions
is the product over the distinct wildcards of the number of values each is
bound to (an absent wildcard is bound to the single empty string); and the
worked example `"test_{foo}_{bar}"` with `foo = "a"`, `bar = ["1","2"]`
yields `["test_a_1", "test_a_2"]` in that order. -/
theorem c6_do_substitutions_expansion :
    (∀ subs test, find_placeholders test = [] → expand_pattern subs test = [test])
    ∧ (∀ subs test, (expand_pattern subs test).length
        = ((dedupFirstAux [] (find_placeholders test)).map
            (fun k => (valueList (substGet subs k)).length)).prod)
    ∧ do_substitutions [("foo", SubstVal.scalar "a"), ("bar", SubstVal.values ["1", "2"])]
        ["test_{foo}_{bar}"] = ["test_a_1", "test_a_2"]
    ∧ do_substitutions [("foo", SubstVal.scalar "a")] ["x_{baz}_y"] = ["x__y"]
    ∧ do_substitutions [] ["plain_test"] = ["plain_test"] := by
  refine ⟨?_, expand_pattern_length, by decide, by decide, by decide⟩
  intro subs test h
  simp [expand_pattern, h]

/-- C6 witness: the no-wildcard clause of `c6_do_substitutions_expansion`
instantiated at a concrete pattern. -/
theorem c6_do_substitutions_expansion_witness :
    expand_pattern [] "plain_test" = ["plain_test"] :=
  c6_do_substitutions_expansion.1 [] "plain_test" (by decide)

/-- C7 (confirmed): `Element.has_tags` vacuously accepts the empty request
list, and otherwise accepts exactly when every non-excluded requested tag is
among the element's own tags and no excluded (`-tag`) requested tag is; in
particular `has_tags(["-slow"])` rejects an element tagged `{"slow"}` and
accepts an element with no tags. -/
theorem c7_has_tags_filtering :
    (∀ ownTags tags, has_tags ownTags tags = true ↔
       ∀ t ∈ tags, (tagIsExcluded t = true → tagRest t ∉ ownTags)
         ∧ (tagIsExcluded t = false → t ∈ ownTags))
    ∧ (∀ ownTags, has_tags ownTags [] = true)
    ∧ has_tags ["slow"] ["-slow"] = false
    ∧ has_tags [] ["-slow"] = true := by
  refine ⟨?_, fun ownTags => by simp [has_tags], by decide, by decide⟩
  intro ownTags tags
  cases tags with
  | nil => simp [has_tags]
  | cons t ts =>
    rw [has_tags, if_neg (by simp), List.all_eq_true]
    constructor
    · intro h x hx
      have hx2 := h x hx
      constructor
      · intro hex
        rw [hex] at hx2
        simp only [if_true] at hx2
        intro hmem
        rw [← memS_iff] at hmem
        simp [hmem] at hx2
      · intro hex
        rw [hex] at hx2
        simp only [Bool.false_eq_true, if_false] at hx2
        exact (memS_iff _ _).mp hx2
    · intro h x hx
      obtain ⟨h1, h2⟩ := h x hx
      cases hexc : tagIsExcluded x with
      | true =>
        simp only [hexc, if_true]
        have hm := h1 hexc
        rw [← memS_iff] at hm
        simp [hm]
      | false =>
        simp only [hexc, Bool.false_eq_true, if_false]
        exact (memS_iff _ _).mpr (h2 hexc)

/-- C7 witness: `c7_has_tags_filtering` instantiated at the claim's concrete
examples. -/
theorem c7_has_tags_filtering_witness :
    has_tags ["slow"] ["-slow"] = false ∧ has_tags [] [] = true :=
  ⟨c7_has_tags_filtering.2.2.1, c7_has_tags_filtering.2.1 []⟩

/-- Model of `Result` (Testplan.py lines 134-160): the fields the
reconciliation engine reads.  `Result.__init__` sets `mapped = False`. -/
structure Result where
  name : String
  passing : Nat
  total : Nat
  mapped : Bool
deriving DecidableEq, Repr

/-- A freshly constructed `Result(name, passing, total)`. -/
def mkResult (name : String) (passing total : Nat) : Result :=
  ⟨name, passing, total, false⟩

/-- Model of `Testpoint`: name, description, stage, tags, the resolved
`tests` list, the `not_mapped` flag (`tests == ["N/A"]`) and the
`test_results` accumulated during reconciliation (initially empty). -/
structure Testpoint where
  name : String
  desc : String
  stage : String
  tags : List String
  tests : List String
  not_mapped : Bool
  test_results : List Result
deriving DecidableEq, Repr

/-- A freshly constructed testpoint as the `Testpoint.__init__` constructor
leaves it: `not_mapped` is set exactly when `tests == ["N/A"]` and
`test_results` starts empty. -/
def mkTestpoint (name stage : String) (tests : List String) : Testpoint :=
  ⟨name, "", stage, [], tests, tests == ["N/A"], []⟩

/-- Output of `Testpoint.map_test_results`: the updated testpoint and the
shared results list (whose `mapped` flags the Python code mutates in
place). -/
structure TPMapOut where
  tp : Testpoint
  results : List Result
deriving Repr

/-- Model of `Testpoint.map_test_results` (Testplan.py lines 331-361):
an empty `tests` list synthesises one placeholder named after the
testpoint; a `not_mapped` testpoint is skipped; otherwise every matching
result is marked mapped and attached, then a zero placeholder is appended
for each declared test with no attached result of that name. -/
def Testpoint.map_test_results (tp : Testpoint) (results : List Result) : TPMapOut :=
  if tp.tests.isEmpty then
    ⟨{ tp with test_results := [mkResult tp.name 0 0] }, results⟩
  else if tp.not_mapped then ⟨tp, results⟩
  else
    let results2 := results.map fun r =>
      if memS r.name tp.tests then { r with mapped := true } else r
    let attached := tp.test_results ++ results2.filter (fun r => memS r.name tp.tests)
    let tests_mapped := attached.map Result.name
    let missing := (tp.tests.filter (fun t => ! memS t tests_mapped)).map
      (fun t => mkResult t 0 0)
    ⟨{ tp with test_results := attached ++ missing }, results2⟩

/-- One stage's entry of the `progress` dict: Python initialises
`progress` to the float `0.0` and later overwrites it with a percentage
string; the pre-overwrite float is modelled as `none`. -/
structure Stat where
  passing : Nat
  written : Nat
  total : Nat
  progress : Option String
deriving DecidableEq, Repr

/-- The mutable state threaded through `Testplan.map_test_results`: the
`tests_seen` set (a list observed only through membership), the `progress`
dict and the per-stage `totals` accumulator results.  Looking up a stage
absent from the Python dicts would raise; the model reads `none` /
the initial total there, a case the algorithm never exercises. -/
structure MapState where
  tests_seen : List String
  progress : String → Option Stat
  totals : String → Result

/-- One result's contribution to a stage's progress tally. -/
def bumpStat (st : Stat) (tr : Result) : Stat :=
  let st1 : Stat := { st with total := st.total + 1 }
  if tr.total ≠ 0 then
    { st1 with
      passing := if tr.passing = tr.total then st1.passing + 1 else st1.passing
      written := st1.written + 1 }
  else st1

/-- Python `totals[ms].test_results[0].passing += tr.passing` (and total). -/
def addRes (acc : Result) (tr : Result) : Result :=
  { acc with passing := acc.passing + tr.passing, total := acc.total + tr.total }

/-- The body of `_process_testpoint`'s loop (Testplan.py lines 833-853) for
one result of a testpoint with stage `ms`: skip a result name already seen,
otherwise record it, bump the stage's progress tally, and add its
passing/total into the stage total and (once) the grand total. -/
def process_result (ms : String) (st : MapState) (tr : Result) : MapState :=
  if memS tr.name st.tests_seen then st
  else
    { tests_seen := tr.name :: st.tests_seen
      progress := fun s =>
        if s = ms then (st.progress ms).map (fun x => bumpStat x tr) else st.progress s
      totals := fun s =>
        if s = ms then addRes (st.totals ms) tr
        else if s = "N.A." ∧ ms ≠ "N.A." then addRes (st.totals "N.A.") tr
        else st.totals s }

/-- Model of `_process_testpoint` (Testplan.py lines 824-853). -/
def process_testpoint (tp : Testpoint) (st : MapState) : MapState :=
  tp.test_results.foldl (process_result tp.stage) st

/-- The label of a total row, in the markdown format the model fixes
(`format="md"`; the html variant only changes this label's markup). -/
def total_name (ms : String) : String :=
  if ms = "N.A." then "**TOTAL**" else "**TOTAL for " ++ ms ++ "**"

/-- The initial accumulator `Result` of a stage total. -/
def mkTotalResult (ms : String) : Result := ⟨total_name ms, 0, 0, false⟩

/-- The synthetic total pseudo-testpoint for a stage, holding the final
accumulated result (Testplan.py lines 859-873). -/
def mkTotalTestpoint (ms : String) (res : Result) : Testpoint :=
  ⟨"N.A.", "Total " ++ ms ++ " tests", ms, [], [], false, [res]⟩

/-- Code-point lexicographic comparison of character lists, as Python
compares strings. -/
def charListLt : List Char → List Char → Bool
  | [], [] => false
  | [], _ :: _ => true
  | _ :: _, [] => false
  | a :: as, b :: bs => if a < b then true else if b < a then false else charListLt as bs

/-- Strict order on stage strings used as the sort key. -/
def stageLt (a b : String) : Bool := charListLt a.data b.data

/-- Stable insertion used to model Python's stable `list.sort(key=stage)`:
an element moves past exactly the earlier elements with strictly smaller
stage, so equal stages keep their original relative order. -/
def insertByStage (x : Testpoint) : List Testpoint → List Testpoint
  | [] => [x]
  | y :: ys => if stageLt y.stage x.stage then y :: insertByStage x ys else x :: y :: ys

/-- Stable sort by stage (`Testplan._sort` for testpoints). -/
def sortByStage : List Testpoint → List Testpoint
  | [] => []
  | x :: xs => insertByStage x (sortByStage xs)

/-- The state after the main mapping loop over the testplan's testpoints. -/
structure MapLoopOut where
  tps : List Testpoint
  results : List Result
  st : MapState

/-- The loop `for tp in self.testpoints: tp.map_test_results(...);
_process_testpoint(tp, totals)` (Testplan.py lines 886-888), threading the
shared results list and the accumulator state. -/
def mapLoop : List Testpoint → List Result → MapState → MapLoopOut
  | [], results, st => ⟨[], results, st⟩
  | tp :: rest, results, st =>
    let m := Testpoint.map_test_results tp results
    let out := mapLoop rest m.results (process_testpoint m.tp st)
    ⟨m.tp :: out.tps, out.results, out.st⟩

/-- Everything `Testplan.map_test_results` leaves behind: the final
`self.testpoints` list, the final `self.progress` dict, and (still
reachable on the object) the mapped original testpoints, the unmapped
bucket, the totals accumulators and the shared results list. -/
structure MapOutput where
  testpoints : List Testpoint
  progress : String → Option Stat
  mapped_testpoints : List Testpoint
  unmapped : Testpoint
  totals : String → Result
  results : List Result

/-- The initial progress dict `Testplan.__init__` builds (Testplan.py
lines 484-493): a zero row for every testpoint stage plus the "N.A."
sentinel, `none` for any other key (a Python dict lookup there would
raise). -/
def progress0Of (tps : List Testpoint) : String → Option Stat := fun s =>
  if memS s (tps.map Testpoint.stage) || s == "N.A." then some ⟨0, 0, 0, none⟩ else none

/-- The accumulator state entering `Testplan.map_test_results`: nothing
seen, the initial progress dict, every total at its initial result. -/
def st0Of (tps : List Testpoint) : MapState := ⟨[], progress0Of tps, mkTotalResult⟩

/-- The main mapping loop run from the initial state. -/
def loOf (tps : List Testpoint) (results : List Result) : MapLoopOut :=
  mapLoop tps results (st0Of tps)

/-- The "Unmapped tests" pseudo-testpoint (Testplan.py lines 875-891):
stage "N.A.", holding every result whose `mapped` flag is still false
after the mapping loop. -/
def unmappedOf (tps : List Testpoint) (results : List Result) : Testpoint :=
  ⟨"Unmapped tests", "Unmapped tests", "N.A.", [], [],
    false, (loOf tps results).results.filter (fun r => ! r.mapped)⟩

/-- The accumulator state after also processing the unmapped bucket once. -/
def st2Of (tps : List Testpoint) (results : List Result) : MapState :=
  process_testpoint (unmappedOf tps results) (loOf tps results).st

/-- The mapped testpoints with one total pseudo-testpoint appended per
distinct stage (Testplan.py lines 894-896). -/
def withTotalsOf (tps : List Testpoint) (results : List Result) : List Testpoint :=
  (loOf tps results).tps ++
    (dedupFirstAux [] ((loOf tps results).tps.map Testpoint.stage)).map
      (fun ms => mkTotalTestpoint ms ((st2Of tps results).totals ms))

/-- The set `totstages` (Testplan.py line 858): distinct testpoint stages
plus the sentinel, sized by this deduplicated list. -/
def totstagesOf (tps : List Testpoint) : List String :=
  dedupFirstAux [] (tps.map Testpoint.stage ++ ["N.A."])

/-- After sorting by stage, the unmapped bucket is appended when
non-empty (Testplan.py lines 897-901). -/
def withUnmappedOf (tps : List Testpoint) (results : List Result) : List Testpoint :=
  if (unmappedOf tps results).test_results.isEmpty then sortByStage (withTotalsOf tps results)
  else sortByStage (withTotalsOf tps results) ++ [unmappedOf tps results]

/-- The final testpoint list: the grand total is appended only when more
than two distinct stage values (sentinel included) exist (Testplan.py
lines 902-904). -/
def finalOf (tps : List Testpoint) (results : List Result) : List Testpoint :=
  if 2 < (totstagesOf tps).length then
    withUnmappedOf tps results ++ [mkTotalTestpoint "N.A." ((st2Of tps results).totals "N.A.")]
  else withUnmappedOf tps results

/-- The body of the final progress loop for one stage key: a zero-total
row is popped, a non-zero row gets its percentage string. -/
def dropOrRender (o : Option Stat) : Option Stat :=
  match o with
  | none => none
  | some stt =>
    if stt.total = 0 then none
    else some { stt with progress := some (get_percentage stt.passing stt.total) }

/-- The final progress dict (Testplan.py lines 906-915): each stage
reachable from the final testpoint list is dropped when its total is zero,
otherwise its percentage string is rendered; other keys are untouched. -/
def progressFOf (tps : List Testpoint) (results : List Result) : String → Option Stat :=
  fun s =>
    if memS s ((finalOf tps results).map Testpoint.stage) then
      dropOrRender ((st2Of tps results).progress s)
    else (st2Of tps results).progress s

/-- Model of `Testplan.map_test_results` (Testplan.py lines 819-917),
markdown format: map results into each testpoint, process each through the
accumulators, collect never-mapped results into the "Unmapped tests"
bucket and process it once, append the per-stage totals and sort, append
the unmapped bucket when non-empty and the grand total when more than two
distinct stage values exist (counting the sentinel), then drop zero-total
stages reached from the final testpoint list from the progress dict and
render the remaining percentages. -/
def Testplan.map_test_results (tps : List Testpoint) (results : List Result) : MapOutput :=
  ⟨finalOf tps results, progressFOf tps results, (loOf tps results).tps,
    unmappedOf tps results, (st2Of tps results).totals, (loOf tps results).results⟩

/-- Model of `Testplan.get_test_results_summary` (Testplan.py lines
1160-1177): read the last testpoint, assert its name and stage are both
`"N.A."` (an assertion failure is modelled as `none`), and report the
passing/total/pass-rate of its single total result. -/
def get_test_results_summary (out : MapOutput) : Option (Nat × Nat × String) :=
  match out.testpoints.getLast? with
  | none => none
  | some total =>
    if total.name = "N.A." ∧ total.stage = "N.A." then
      match total.test_results.head? with
      | some tr => some (tr.passing, tr.total, get_percentage tr.passing tr.total)
      | none => none
    else none

/-- The end-to-end scenario of the spec: one testpoint, stage "V1", tests
t1 and t2, reconciled against one passing and one failing result. -/
def exOneStageTps : List Testpoint := [mkTestpoint "tp1" "V1" ["t1", "t2"]]

/-- The results fed to the one-stage scenario. -/
def exOneStageResults : List Result := [mkResult "t1" 1 1, mkResult "t2" 0 1]

/-- The reconciled one-stage scenario. -/
def exOneStage : MapOutput := Testplan.map_test_results exOneStageTps exOneStageResults

/-- A scenario with one testpoint and one result that matches nothing, so
the unmapped bucket is non-empty. -/
def exUnmappedTps : List Testpoint := [mkTestpoint "tp1" "V1" ["t1"]]

/-- The single unmatched result of the unmapped scenario. -/
def exUnmappedResults : List Result := [mkResult "Z" 2 3]

/-- The reconciled unmapped scenario. -/
def exUnmapped : MapOutput := Testplan.map_test_results exUnmappedTps exUnmappedResults

/-- C3 counterexample: in the spec's own one-stage scenario the code
renders the pass rate as "50.0%" (not "50%"), leaves the grand-total
progress row `progress["N.A."]` at its zero initialisation (it does not
mirror the V1 counts), and keeps the per-stage V1 total as the last
testpoint while suppressing the grand-total row (the claim states the
reverse). -/
theorem c3_counterexample :
    exOneStage.progress "V1" = some ⟨1, 2, 2, some "50.0%"⟩
    ∧ exOneStage.progress "N.A." = some ⟨0, 0, 0, none⟩
    ∧ (exOneStage.testpoints.getLast?).map Testpoint.stage = some "V1"
    ∧ some "50.0%" ≠ some "50%"
    ∧ (some (⟨0, 0, 0, none⟩ : Stat)).map Stat.total ≠ some 2
    ∧ some "V1" ≠ some "N.A." := by
  exact ⟨by decide, by decide, by decide, by decide, by decide, by decide⟩

/-- C3 (amended): in the one-stage scenario, `progress["V1"]` holds
passing 1, written 2, total 2 with pass rate "50.0%"; `progress["N.A."]`
remains the zero-initialised row (only testpoints with stage "N.A." feed
it); the grand-total accumulator Result does hold passing 1 / total 2, but
as data on `totals["N.A."]` only — the appended rows are the testpoint
itself followed by the per-stage V1 total, the grand-total row being the
one suppressed when only one real stage exists. -/
theorem c3_one_stage_end_to_end :
    exOneStage.progress "V1" = some ⟨1, 2, 2, some "50.0%"⟩
    ∧ exOneStage.progress "N.A." = some ⟨0, 0, 0, none⟩
    ∧ exOneStage.totals "N.A." = ⟨"**TOTAL**", 1, 2, false⟩
    ∧ exOneStage.totals "V1" = ⟨"**TOTAL for V1**", 1, 2, false⟩
    ∧ exOneStage.testpoints.map (fun tp => (tp.name, tp.stage))
        = [("tp1", "V1"), ("N.A.", "V1")]
    ∧ get_percentage 1 2 = "50.0%" := by
  exact ⟨by decide, by decide, by decide, by decide, by decide, by decide⟩

/-- C4 counterexample: a testplan with the single stage "W1" and a fully
mapped result leaves `progress["N.A."]` in place as a zero-total row after
`map_test_results` — the always-initialised sentinel is only dropped when
"N.A." occurs among the final testpoints' stages. -/
theorem c4_counterexample :
    (Testplan.map_test_results [mkTestpoint "tpA" "W1" ["u1"]]
        [mkResult "u1" 1 1]).progress "N.A." = some ⟨0, 0, 0, none⟩
    ∧ (⟨0, 0, 0, none⟩ : Stat).total = 0 := by
  exact ⟨by decide, by decide⟩

/-- C2 counterexample: the unmatched result "Z" is collected into the
"Unmapped tests" bucket still carrying `mapped = false` — the code never
sets `mapped = true` for unmapped results, contradicting the claim's
"mapped = true after that placement". -/
theorem c2_counterexample :
    exUnmapped.unmapped.test_results = [⟨"Z", 2, 3, false⟩]
    ∧ exUnmapped.unmapped.test_results.all Result.mapped = false := by
  exact ⟨by decide, by decide⟩

/-- C9 counterexample: with a single real stage (the distinct stage values
with the sentinel number exactly two) but a non-empty unmapped bucket, the
last testpoint is the "Unmapped tests" bucket — not the per-stage total —
and its stage is "N.A.", so the stage assertion of
`get_test_results_summary` holds (the name assertion is the one that
fails), contradicting the claim's description of the two-value case. -/
theorem c9_counterexample :
    (dedupFirstAux [] (exUnmappedTps.map Testpoint.stage ++ ["N.A."])).length = 2
    ∧ (exUnmapped.testpoints.getLast?).map Testpoint.name = some "Unmapped tests"
    ∧ (exUnmapped.testpoints.getLast?).map Testpoint.stage = some "N.A." := by
  exact ⟨by decide, by decide, by decide⟩

/-- First-occurrence-by-name deduplication of a result list against a seen
set: the results that the global `tests_seen` set lets through. -/
def dedupByNameAux (seen : List String) : List Result → List Result
  | [] => []
  | r :: rs =>
    if memS r.name seen then dedupByNameAux seen rs
    else r :: dedupByNameAux (r.name :: seen) rs

/-- The seen set after scanning a result list. -/
def seenAfter (seen : List String) : List Result → List String
  | [] => seen
  | r :: rs =>
    if memS r.name seen then seenAfter seen rs else seenAfter (r.name :: seen) rs

/-- An accumulator result after absorbing the passing/total sums of a list. -/
def sumRes (acc : Result) (l : List Result) : Result :=
  { acc with
    passing := acc.passing + (l.map Result.passing).sum
    total := acc.total + (l.map Result.total).sum }

lemma dedupByNameAux_append (seen : List String) (a b : List Result) :
    dedupByNameAux seen (a ++ b)
      = dedupByNameAux seen a ++ dedupByNameAux (seenAfter seen a) b := by
  induction a generalizing seen with
  | nil => simp [dedupByNameAux, seenAfter]
  | cons r rs ih =>
    simp only [List.cons_append, dedupByNameAux, seenAfter]
    by_cases h : memS r.name seen = true
    · simp [h, ih]
    · simp only [Bool.not_eq_true] at h
      simp [h, ih]

lemma seenAfter_append (seen : List String) (a b : List Result) :
    seenAfter seen (a ++ b) = seenAfter (seenAfter seen a) b := by
  induction a generalizing seen with
  | nil => simp [seenAfter]
  | cons r rs ih =>
    simp only [List.cons_append, seenAfter]
    by_cases h : memS r.name seen = true
    · simp [h, ih]
    · simp only [Bool.not_eq_true] at h
      simp [h, ih]

lemma process_result_grand (ms : String) (st : MapState) (tr : Result) :
    (process_result ms st tr).totals "N.A."
      = if memS tr.name st.tests_seen then st.totals "N.A."
        else addRes (st.totals "N.A.") tr := by
  rw [process_result]
  by_cases h : memS tr.name st.tests_seen = true
  · simp [h]
  · simp only [Bool.not_eq_true] at h
    simp only [h, Bool.false_eq_true, if_false]
    by_cases hms : ("N.A." : String) = ms
    · simp [← hms]
    · simp [hms, Ne.symm hms]

lemma process_result_seen (ms : String) (st : MapState) (tr : Result) :
    (process_result ms st tr).tests_seen
      = if memS tr.name st.tests_seen then st.tests_seen
        else tr.name :: st.tests_seen := by
  rw [process_result]
  by_cases h : memS tr.name st.tests_seen = true
  · simp [h]
  · simp only [Bool.not_eq_true] at h
    simp [h]

lemma foldl_process_seen (ms : String) (rs : List Result) :
    ∀ st : MapState,
    (rs.foldl (process_result ms) st).tests_seen = seenAfter st.tests_seen rs := by
  induction rs with
  | nil => intro st; simp [seenAfter]
  | cons r rest ih =>
    intro st
    simp only [List.foldl_cons, seenAfter]
    rw [ih]
    by_cases h : memS r.name st.tests_seen = true
    · rw [process_result, if_pos h, if_pos h]
    · simp only [Bool.not_eq_true] at h
      rw [process_result, if_neg (by simp [h]), h]
      simp

lemma sumRes_cons (acc : Result) (r : Result) (l : List Result) :
    sumRes acc (r :: l) = sumRes (addRes acc r) l := by
  simp [sumRes, addRes]
  constructor <;> ring

lemma sumRes_append (acc : Result) (a b : List Result) :
    sumRes acc (a ++ b) = sumRes (sumRes acc a) b := by
  simp [sumRes]
  constructor <;> ring

lemma foldl_process_grand (ms : String) (rs : List Result) :
    ∀ st : MapState,
    (rs.foldl (process_result ms) st).totals "N.A."
      = sumRes (st.totals "N.A.") (dedupByNameAux st.tests_seen rs) := by
  induction rs with
  | nil => intro st; simp [sumRes, dedupByNameAux]
  | cons r rest ih =>
    intro st
    simp only [List.foldl_cons, dedupByNameAux]
    rw [ih]
    by_cases h : memS r.name st.tests_seen = true
    · rw [process_result, if_pos h, if_pos h]
    · simp only [Bool.not_eq_true] at h
      rw [h]
      simp only [Bool.false_eq_true, if_false]
      rw [sumRes_cons]
      congr 1
      · rw [process_result_grand, h]
        simp
      · congr 1
        rw [process_result_seen, h]
        simp

lemma process_testpoint_grand (tp : Testpoint) (st : MapState) :
    (process_testpoint tp st).totals "N.A."
      = sumRes (st.totals "N.A.") (dedupByNameAux st.tests_seen tp.test_results) :=
  foldl_process_grand tp.stage tp.test_results st

lemma process_testpoint_seen (tp : Testpoint) (st : MapState) :
    (process_testpoint tp st).tests_seen = seenAfter st.tests_seen tp.test_results :=
  foldl_process_seen tp.stage tp.test_results st

lemma tps_foldl_grand (L : List Testpoint) :
    ∀ st : MapState,
    ((L.foldl (fun s tp => process_testpoint tp s) st).totals "N.A."
        = sumRes (st.totals "N.A.")
            (dedupByNameAux st.tests_seen (concatMap Testpoint.test_results L)))
    ∧ ((L.foldl (fun s tp => process_testpoint tp s) st).tests_seen
        = seenAfter st.tests_seen (concatMap Testpoint.test_results L)) := by
  induction L with
  | nil => intro st; exact ⟨by simp [sumRes, dedupByNameAux, concatMap], by simp [seenAfter, concatMap]⟩
  | cons tp L ih =>
    intro st
    simp only [List.foldl_cons, concatMap]
    constructor
    · rw [(ih (process_testpoint tp st)).1, process_testpoint_grand,
        process_testpoint_seen, dedupByNameAux_append, sumRes_append]
    · rw [(ih (process_testpoint tp st)).2, process_testpoint_seen, seenAfter_append]

lemma mapLoop_st (tps : List Testpoint) :
    ∀ (results : List Result) (st : MapState),
    (mapLoop tps results st).st
      = (mapLoop tps results st).tps.foldl (fun s tp => process_testpoint tp s) st := by
  induction tps with
  | nil => intro results st; simp [mapLoop]
  | cons tp rest ih =>
    intro results st
    simp only [mapLoop, List.foldl_cons]
    exact ih _ _

/-- The grand-total accumulator of a finished reconciliation equals the
initial total plus the passing/total sums over the first-occurrence-by-name
deduplication of every result attached to the mapped testpoints followed by
the unmapped bucket. -/
lemma grand_total_eq_dedup_sum (tps : List Testpoint) (results : List Result) :
    (Testplan.map_test_results tps results).totals "N.A."
      = sumRes (mkTotalResult "N.A.")
          (dedupByNameAux []
            (concatMap Testpoint.test_results
                (Testplan.map_test_results tps results).mapped_testpoints
              ++ (Testplan.map_test_results tps results).unmapped.test_results)) := by
  simp only [Testplan.map_test_results, st2Of]
  rw [process_testpoint_grand]
  simp only [loOf]
  rw [mapLoop_st, (tps_foldl_grand _ _).1, (tps_foldl_grand _ _).2,
    dedupByNameAux_append, sumRes_append]
  rfl

/-- The shared-test scenario of C1: two testpoints in different stages both
resolving the single test name "X", reconciled against one result. -/
def exShared : MapOutput :=
  Testplan.map_test_results
    [mkTestpoint "TP1" "S1" ["X"], mkTestpoint "TP2" "S2" ["X"]]
    [mkResult "X" 1 1]

/-- C1 (confirmed): a result name resolved by several testpoints is
attached to each of them, but the stage/grand accumulators count each
distinct result name exactly once: in general the grand-total accumulator
equals the sum over the first-occurrence-by-name deduplication of all
attached results (so later structural occurrences of a name contribute
nothing), and in the concrete two-testpoint scenario with the single
result X(1,1) both testpoints hold X as passing while the grand total is
1/1 — counted once — and only the first testpoint's stage progress row
records it. -/
theorem c1_shared_result_counted_once :
    (∀ tps results,
      (Testplan.map_test_results tps results).totals "N.A."
        = sumRes (mkTotalResult "N.A.")
            (dedupByNameAux []
              (concatMap Testpoint.test_results
                  (Testplan.map_test_results tps results).mapped_testpoints
                ++ (Testplan.map_test_results tps results).unmapped.test_results)))
    ∧ exShared.mapped_testpoints.map Testpoint.test_results
        = [[⟨"X", 1, 1, true⟩], [⟨"X", 1, 1, true⟩]]
    ∧ exShared.totals "N.A." = ⟨"**TOTAL**", 1, 1, false⟩
    ∧ exShared.progress "S1" = some ⟨1, 1, 1, some "100%"⟩
    ∧ exShared.progress "S2" = none
    ∧ exShared.unmapped.test_results = [] := by
  exact ⟨grand_total_eq_dedup_sum, by decide, by decide, by decide, by decide, by decide⟩

lemma mem_of_mem_dedupByNameAux (seen : List String) (l : List Result) (x : Result)
    (h : x ∈ dedupByNameAux seen l) : x ∈ l := by
  induction l generalizing seen with
  | nil => simp [dedupByNameAux] at h
  | cons r rs ih =>
    rw [dedupByNameAux] at h
    split at h
    · exact List.mem_cons_of_mem _ (ih _ h)
    · rcases List.mem_cons.mp h with h1 | h2
      · exact h1 ▸ List.mem_cons_self _ _
      · exact List.mem_cons_of_mem _ (ih _ h2)

lemma memS_seenAfter (a : String) (seen : List String) (l : List Result)
    (h : memS a (seenAfter seen l) = true) :
    memS a seen = true ∨ ∃ x ∈ l, x.name = a := by
  induction l generalizing seen with
  | nil => exact Or.inl (by simpa [seenAfter] using h)
  | cons r rs ih =>
    rw [seenAfter] at h
    split at h
    · rcases ih _ h with h1 | ⟨x, hx, hxa⟩
      · exact Or.inl h1
      · exact Or.inr ⟨x, List.mem_cons_of_mem _ hx, hxa⟩
    · rcases ih _ h with h1 | ⟨x, hx, hxa⟩
      · rw [memS] at h1
        rcases Bool.or_eq_true_iff.mp h1 with h2 | h3
        · exact Or.inr ⟨r, List.mem_cons_self _ _, (beq_iff_eq.mp h2).symm⟩
        · exact Or.inl h3
      · exact Or.inr ⟨x, List.mem_cons_of_mem _ hx, hxa⟩

lemma sum_passing_zero (l : List Result) (h : ∀ x ∈ l, x.passing = 0) :
    (l.map Result.passing).sum = 0 := by
  induction l with
  | nil => simp
  | cons r rs ih =>
    simp only [List.map_cons, List.sum_cons]
    rw [h r (List.mem_cons_self _ _), ih (fun x hx => h x (List.mem_cons_of_mem _ hx))]

lemma sum_total_zero (l : List Result) (h : ∀ x ∈ l, x.total = 0) :
    (l.map Result.total).sum = 0 := by
  induction l with
  | nil => simp
  | cons r rs ih =>
    simp only [List.map_cons, List.sum_cons]
    rw [h r (List.mem_cons_self _ _), ih (fun x hx => h x (List.mem_cons_of_mem _ hx))]

lemma tp_map_unmatched (tp : Testpoint) (r : Result)
    (h1 : r.name ∉ tp.tests) (h2 : r.name ≠ tp.name) (h3 : tp.test_results = []) :
    (Testpoint.map_test_results tp [r]).results = [r]
    ∧ ∀ x ∈ (Testpoint.map_test_results tp [r]).tp.test_results,
        x.passing = 0 ∧ x.total = 0 ∧ x.name ≠ r.name := by
  have hmem : memS r.name tp.tests = false := by
    rw [← Bool.not_eq_true, memS_iff]
    exact h1
  rw [Testpoint.map_test_results]
  split
  · refine ⟨rfl, ?_⟩
    intro x hx
    simp only [List.mem_singleton] at hx
    subst hx
    exact ⟨rfl, rfl, fun hc => h2 (by simpa [mkResult] using hc.symm)⟩
  · split
    · refine ⟨rfl, ?_⟩
      intro x hx
      rw [h3] at hx
      simp at hx
    · simp only [List.map_cons, List.map_nil, hmem, Bool.false_eq_true, if_false,
        List.filter_cons, List.filter_nil, h3, List.nil_append]
      refine ⟨trivial, ?_⟩
      intro x hx
      simp only [List.nil_append, List.mem_map, List.mem_filter] at hx
      obtain ⟨tname, ⟨htmem, _⟩, hx⟩ := hx
      subst hx
      exact ⟨rfl, rfl, fun hc => h1 (by simpa [mkResult] using hc ▸ htmem)⟩

lemma mapLoop_unmatched (tps : List Testpoint) (r : Result)
    (h : ∀ tp ∈ tps, r.name ∉ tp.tests ∧ r.name ≠ tp.name ∧ tp.test_results = []) :
    ∀ st : MapState,
    (mapLoop tps [r] st).results = [r]
    ∧ ∀ tp' ∈ (mapLoop tps [r] st).tps, ∀ x ∈ tp'.test_results,
        x.passing = 0 ∧ x.total = 0 ∧ x.name ≠ r.name := by
  induction tps with
  | nil =>
    intro st
    exact ⟨rfl, by intro tp' h'; simp [mapLoop] at h'⟩
  | cons tp rest ih =>
    intro st
    obtain ⟨h1, h2, h3⟩ := h tp (List.mem_cons_self _ _)
    have htp := tp_map_unmatched tp r h1 h2 h3
    have ihr := ih (fun tp' htp' => h tp' (List.mem_cons_of_mem _ htp'))
      (process_testpoint (Testpoint.map_test_results tp [r]).tp st)
    constructor
    · show (mapLoop rest (Testpoint.map_test_results tp [r]).results _).results = [r]
      rw [htp.1]
      exact ihr.1
    · intro tp' htp' x hx
      simp only [mapLoop] at htp'
      rcases List.mem_cons.mp htp' with hh | hh
      · subst hh
        exact htp.2 x hx
      · rw [htp.1] at hh
        exact ihr.2 tp' hh x hx

lemma mem_concatMap (f : α → List β) (L : List α) (x : β) :
    x ∈ concatMap f L ↔ ∃ a ∈ L, x ∈ f a := by
  induction L with
  | nil => simp [concatMap]
  | cons a L ih =>
    simp only [concatMap, List.mem_append, ih, List.mem_cons]
    constructor
    · rintro (hx | ⟨b, hb, hxb⟩)
      · exact ⟨a, Or.inl rfl, hx⟩
      · exact ⟨b, Or.inr hb, hxb⟩
    · rintro ⟨b, hb | hb, hxb⟩
      · exact Or.inl (hb ▸ hxb)
      · exact Or.inr ⟨b, hb, hxb⟩

/-- C2 (amended): a supplied `Result` matching no testpoint's resolved
tests ends up in the "Unmapped tests" bucket (stage "N.A."), appears by
name in no mapped testpoint's results, and the bucket feeds the global
totals pass exactly once — the grand total absorbs the result's
passing/total exactly once.  Contrary to the claim as stated, its `mapped`
flag is false both before and after that placement: the code never marks
unmapped results. -/
theorem c2_unmapped_result_invariant (tps : List Testpoint) (nm : String) (p t : Nat)
    (h : ∀ tp ∈ tps, nm ∉ tp.tests ∧ nm ≠ tp.name ∧ tp.test_results = []) :
    (Testplan.map_test_results tps [mkResult nm p t]).unmapped.test_results
      = [⟨nm, p, t, false⟩]
    ∧ (Testplan.map_test_results tps [mkResult nm p t]).unmapped.stage = "N.A."
    ∧ (∀ tp' ∈ (Testplan.map_test_results tps [mkResult nm p t]).mapped_testpoints,
        ∀ x ∈ tp'.test_results, x.name ≠ nm)
    ∧ (Testplan.map_test_results tps [mkResult nm p t]).totals "N.A."
      = ⟨"**TOTAL**", p, t, false⟩ := by
  have hml := mapLoop_unmatched tps (mkResult nm p t) h (st0Of tps)
  have hunm : (Testplan.map_test_results tps [mkResult nm p t]).unmapped.test_results
      = [⟨nm, p, t, false⟩] := by
    simp only [Testplan.map_test_results, unmappedOf, loOf]
    rw [hml.1]
    simp [mkResult]
  have hmapped : ∀ tp' ∈ (Testplan.map_test_results tps [mkResult nm p t]).mapped_testpoints,
      ∀ x ∈ tp'.test_results, x.passing = 0 ∧ x.total = 0 ∧ x.name ≠ nm := by
    simp only [Testplan.map_test_results, loOf]
    exact hml.2
  refine ⟨hunm, rfl, fun tp' htp' x hx => (hmapped tp' htp' x hx).2.2, ?_⟩
  rw [grand_total_eq_dedup_sum tps [mkResult nm p t], hunm]
  have hAzero : ∀ x ∈ concatMap Testpoint.test_results
      (Testplan.map_test_results tps [mkResult nm p t]).mapped_testpoints,
      x.passing = 0 ∧ x.total = 0 ∧ x.name ≠ nm := by
    intro x hx
    obtain ⟨tp', htp', hxtp⟩ := (mem_concatMap _ _ _).mp hx
    exact hmapped tp' htp' x hxtp
  rw [dedupByNameAux_append]
  have hseen : memS nm (seenAfter []
      (concatMap Testpoint.test_results
        (Testplan.map_test_results tps [mkResult nm p t]).mapped_testpoints)) = false := by
    rw [← Bool.not_eq_true]
    intro hc
    rcases memS_seenAfter nm [] _ hc with h1 | ⟨x, hx, hxa⟩
    · simp [memS] at h1
    · exact (hAzero x hx).2.2 hxa
  rw [dedupByNameAux, hseen]
  simp only [Bool.false_eq_true, if_false, dedupByNameAux]
  have hdA := fun x hx =>
    hAzero x (mem_of_mem_dedupByNameAux [] _ x hx)
  rw [sumRes_append]
  have hsum1 : sumRes (mkTotalResult "N.A.")
      (dedupByNameAux []
        (concatMap Testpoint.test_results
          (Testplan.map_test_results tps [mkResult nm p t]).mapped_testpoints))
      = mkTotalResult "N.A." := by
    rw [sumRes, sum_passing_zero _ (fun x hx => (hdA x hx).1),
      sum_total_zero _ (fun x hx => (hdA x hx).2.1)]
    simp
  rw [hsum1]
  simp [sumRes, mkTotalResult, total_name]

lemma process_result_progress_none (ms : String) (st : MapState) (tr : Result) (s : String) :
    ((process_result ms st tr).progress s = none) ↔ (st.progress s = none) := by
  rw [process_result]
  by_cases h : memS tr.name st.tests_seen = true
  · simp [h]
  · simp only [Bool.not_eq_true] at h
    simp only [h, Bool.false_eq_true, if_false]
    by_cases hs : s = ms
    · subst hs
      simp
    · simp [hs]

lemma foldl_process_progress_none (ms : String) (rs : List Result) :
    ∀ (st : MapState) (s : String),
    ((rs.foldl (process_result ms) st).progress s = none) ↔ (st.progress s = none) := by
  induction rs with
  | nil => intro st s; simp
  | cons r rest ih =>
    intro st s
    simp only [List.foldl_cons]
    rw [ih, process_result_progress_none]

lemma process_testpoint_progress_none (tp : Testpoint) (st : MapState) (s : String) :
    ((process_testpoint tp st).progress s = none) ↔ (st.progress s = none) :=
  foldl_process_progress_none tp.stage tp.test_results st s

lemma tps_foldl_progress_none (L : List Testpoint) :
    ∀ (st : MapState) (s : String),
    ((L.foldl (fun st tp => process_testpoint tp st) st).progress s = none)
      ↔ (st.progress s = none) := by
  induction L with
  | nil => intro st s; simp
  | cons tp L ih =>
    intro st s
    simp only [List.foldl_cons]
    rw [ih, process_testpoint_progress_none]

lemma st2Of_progress_none (tps : List Testpoint) (results : List Result) (s : String) :
    ((st2Of tps results).progress s = none) ↔ (progress0Of tps s = none) := by
  rw [st2Of, process_testpoint_progress_none, loOf, mapLoop_st, tps_foldl_progress_none]
  rfl

lemma tp_map_stage (tp : Testpoint) (results : List Result) :
    (Testpoint.map_test_results tp results).tp.stage = tp.stage := by
  rw [Testpoint.map_test_results]
  split
  · rfl
  · split
    · rfl
    · rfl

lemma mapLoop_stages (tps : List Testpoint) :
    ∀ (results : List Result) (st : MapState),
    (mapLoop tps results st).tps.map Testpoint.stage = tps.map Testpoint.stage := by
  induction tps with
  | nil => intro results st; rfl
  | cons tp rest ih =>
    intro results st
    simp only [mapLoop, List.map_cons]
    rw [tp_map_stage, ih]

lemma mem_insertByStage (x y : Testpoint) (l : List Testpoint) :
    y ∈ insertByStage x l ↔ y = x ∨ y ∈ l := by
  induction l with
  | nil => simp [insertByStage]
  | cons z zs ih =>
    rw [insertByStage]
    split
    · simp only [List.mem_cons, ih]
      tauto
    · simp only [List.mem_cons]

lemma mem_sortByStage (y : Testpoint) (l : List Testpoint) :
    y ∈ sortByStage l ↔ y ∈ l := by
  induction l with
  | nil => simp [sortByStage]
  | cons x xs ih =>
    rw [sortByStage, mem_insertByStage, ih, List.mem_cons]

lemma mem_stage_sortByStage (s : String) (l : List Testpoint) :
    s ∈ (sortByStage l).map Testpoint.stage ↔ s ∈ l.map Testpoint.stage := by
  simp only [List.mem_map]
  constructor
  · rintro ⟨tp, htp, hs⟩
    exact ⟨tp, (mem_sortByStage tp l).mp htp, hs⟩
  · rintro ⟨tp, htp, hs⟩
    exact ⟨tp, (mem_sortByStage tp l).mpr htp, hs⟩

lemma mem_stage_finalOf (tps : List Testpoint) (results : List Result) (s : String)
    (hs : s ∈ tps.map Testpoint.stage) :
    s ∈ (finalOf tps results).map Testpoint.stage := by
  have h1 : s ∈ (loOf tps results).tps.map Testpoint.stage := by
    rw [loOf, mapLoop_stages]
    exact hs
  have h2 : s ∈ (withTotalsOf tps results).map Testpoint.stage := by
    rw [withTotalsOf, List.map_append, List.mem_append]
    exact Or.inl h1
  have h3 : s ∈ (sortByStage (withTotalsOf tps results)).map Testpoint.stage :=
    (mem_stage_sortByStage s _).mpr h2
  have h4 : s ∈ (withUnmappedOf tps results).map Testpoint.stage := by
    rw [withUnmappedOf]
    split
    · exact h3
    · rw [List.map_append, List.mem_append]
      exact Or.inl h3
  rw [finalOf]
  split
  · rw [List.map_append, List.mem_append]
    exact Or.inl h4
  · exact h4

/-- C4 (amended): after `map_test_results`, a zero-total row can survive in
the progress map only as the "N.A." sentinel, and only when "N.A." is not
among the final testpoints' stages (no unmapped bucket, no grand-total row
and no "N.A."-staged testpoint): every other stage key remaining in the
map has a non-zero total, the zero ones having been removed.  The claim as
stated fails exactly on that surviving sentinel row. -/
theorem c4_zero_total_stage_dropped (tps : List Testpoint) (results : List Result)
    (s : String) (stt : Stat)
    (h1 : (Testplan.map_test_results tps results).progress s = some stt)
    (h2 : stt.total = 0) :
    s = "N.A." ∧ s ∉ (Testplan.map_test_results tps results).testpoints.map Testpoint.stage := by
  have hprog : progressFOf tps results s = some stt := h1
  rw [progressFOf] at hprog
  by_cases hmem : memS s ((finalOf tps results).map Testpoint.stage) = true
  · rw [if_pos hmem] at hprog
    exfalso
    cases hst : (st2Of tps results).progress s with
    | none =>
      rw [hst] at hprog
      simp [dropOrRender] at hprog
    | some st3 =>
      rw [hst] at hprog
      by_cases htot : st3.total = 0
      · rw [dropOrRender] at hprog
        simp only [htot, if_true] at hprog
        exact Option.noConfusion hprog
      · rw [dropOrRender] at hprog
        simp only [htot, if_false] at hprog
        have : st3.total = stt.total := by
          have := Option.some.inj hprog
          rw [← this]
        omega
  · rw [if_neg hmem] at hprog
    have hnn : ¬ ((st2Of tps results).progress s = none) := by
      rw [hprog]
      simp
    have h0 : ¬ (progress0Of tps s = none) := fun hc =>
      hnn ((st2Of_progress_none tps results s).mpr hc)
    rw [progress0Of] at h0
    by_cases hc : (memS s (tps.map Testpoint.stage) || s == "N.A.") = true
    · have hsmem : s ∉ (finalOf tps results).map Testpoint.stage := by
        intro hin
        exact hmem ((memS_iff _ _).mpr hin)
      rcases Bool.or_eq_true_iff.mp hc with hm | hna
      · exact absurd (mem_stage_finalOf tps results s ((memS_iff _ _).mp hm)) hsmem
      · exact ⟨beq_iff_eq.mp hna, hsmem⟩
    · rw [if_neg hc] at h0
      exact absurd rfl h0

/-- C4 witness: `c4_zero_total_stage_dropped` applied at the concrete
single-stage scenario whose sentinel row survives at zero. -/
theorem c4_zero_total_stage_dropped_witness :
    "N.A." ∉ (Testplan.map_test_results [mkTestpoint "tpA" "W1" ["u1"]]
        [mkResult "u1" 1 1]).testpoints.map Testpoint.stage :=
  (c4_zero_total_stage_dropped [mkTestpoint "tpA" "W1" ["u1"]] [mkResult "u1" 1 1]
    "N.A." ⟨0, 0, 0, none⟩ (by decide) (by decide)).2

lemma charListLt_irrefl (l : List Char) : charListLt l l = false := by
  induction l with
  | nil => rfl
  | cons a as ih =>
    rw [charListLt]
    simp [ih]

lemma stageLt_irrefl (s : String) : stageLt s s = false := charListLt_irrefl s.data

lemma insertByStage_const (s : String) (x : Testpoint) (l : List Testpoint)
    (hx : x.stage = s) (hl : ∀ y ∈ l, y.stage = s) : insertByStage x l = x :: l := by
  cases l with
  | nil => rfl
  | cons y ys =>
    rw [insertByStage, hl y (List.mem_cons_self _ _), hx, stageLt_irrefl]
    simp

lemma sortByStage_const (s : String) (l : List Testpoint)
    (hl : ∀ y ∈ l, y.stage = s) : sortByStage l = l := by
  induction l with
  | nil => rfl
  | cons x xs ih =>
    rw [sortByStage, ih (fun y hy => hl y (List.mem_cons_of_mem _ hy))]
    exact insertByStage_const s x xs (hl x (List.mem_cons_self _ _))
      (fun y hy => hl y (List.mem_cons_of_mem _ hy))

lemma dedupFirstAux_all_seen (seen : List String) (l : List String)
    (h : ∀ x ∈ l, memS x seen = true) : dedupFirstAux seen l = [] := by
  induction l with
  | nil => rfl
  | cons x xs ih =>
    rw [dedupFirstAux, if_pos (h x (List.mem_cons_self _ _))]
    exact ih (fun y hy => h y (List.mem_cons_of_mem _ hy))

lemma dedupFirstAux_const (s : String) (l : List String) (hne : l ≠ [])
    (h : ∀ x ∈ l, x = s) : dedupFirstAux [] l = [s] := by
  cases l with
  | nil => exact absurd rfl hne
  | cons x xs =>
    rw [dedupFirstAux]
    have hx : x = s := h x (List.mem_cons_self _ _)
    subst hx
    rw [if_neg (by simp [memS])]
    rw [dedupFirstAux_all_seen _ _ (fun y hy => by
      rw [h y (List.mem_cons_of_mem _ hy), memS]
      simp)]

lemma dedup_tail_NA (s : String) (rest : List String) (hs : s ≠ "N.A.")
    (hrest : ∀ x ∈ rest, x = s) : dedupFirstAux [s] (rest ++ ["N.A."]) = ["N.A."] := by
  induction rest with
  | nil =>
    rw [List.nil_append, dedupFirstAux]
    rw [if_neg (by simp [memS]; exact fun hc => hs hc.symm)]
    rfl
  | cons x xs ih =>
    rw [List.cons_append, dedupFirstAux]
    rw [hrest x (List.mem_cons_self _ _), if_pos (by simp [memS])]
    exact ih (fun y hy => hrest y (List.mem_cons_of_mem _ hy))

lemma totstagesOf_single (tps : List Testpoint) (s : String) (hne : tps ≠ [])
    (hst : ∀ tp ∈ tps, tp.stage = s) (hs : s ≠ "N.A.") :
    totstagesOf tps = [s, "N.A."] := by
  cases tps with
  | nil => exact absurd rfl hne
  | cons tp rest =>
    rw [totstagesOf]
    simp only [List.map_cons, List.cons_append]
    rw [dedupFirstAux, hst tp (List.mem_cons_self _ _), if_neg (by simp [memS])]
    rw [dedup_tail_NA s _ hs (fun x hx => by
      obtain ⟨tp2, htp2, hx2⟩ := List.mem_map.mp hx
      rw [← hx2]
      exact hst tp2 (List.mem_cons_of_mem _ htp2))]

lemma stage_of_mem_loOf (tps : List Testpoint) (results : List Result) (s : String)
    (hst : ∀ tp ∈ tps, tp.stage = s) :
    ∀ tp' ∈ (loOf tps results).tps, tp'.stage = s := by
  intro tp' htp'
  have hmap : (loOf tps results).tps.map Testpoint.stage = tps.map Testpoint.stage := by
    rw [loOf, mapLoop_stages]
  have hmem : tp'.stage ∈ tps.map Testpoint.stage := by
    rw [← hmap]
    exact List.mem_map_of_mem Testpoint.stage htp'
  obtain ⟨tp2, htp2, hx2⟩ := List.mem_map.mp hmem
  rw [← hx2]
  exact hst tp2 htp2

lemma finalOf_single_stage (tps : List Testpoint) (results : List Result) (s : String)
    (hne : tps ≠ []) (hst : ∀ tp ∈ tps, tp.stage = s) (hs : s ≠ "N.A.")
    (hunm : (unmappedOf tps results).test_results = []) :
    finalOf tps results
      = (loOf tps results).tps
        ++ [mkTotalTestpoint s ((st2Of tps results).totals s)] := by
  have hlo : ∀ tp' ∈ (loOf tps results).tps, tp'.stage = s :=
    stage_of_mem_loOf tps results s hst
  have hlone : (loOf tps results).tps ≠ [] := by
    intro hc
    have := mapLoop_stages tps results (st0Of tps)
    rw [show mapLoop tps results (st0Of tps) = loOf tps results from rfl, hc] at this
    cases tps with
    | nil => exact hne rfl
    | cons tp rest => simp at this
  have hdedup : dedupFirstAux [] ((loOf tps results).tps.map Testpoint.stage) = [s] := by
    refine dedupFirstAux_const s _ ?_ ?_
    · intro hc
      exact hlone (List.map_eq_nil_iff.mp hc)
    · intro x hx
      obtain ⟨tp2, htp2, hx2⟩ := List.mem_map.mp hx
      rw [← hx2]
      exact hlo tp2 htp2
  have hwt : withTotalsOf tps results
      = (loOf tps results).tps ++ [mkTotalTestpoint s ((st2Of tps results).totals s)] := by
    rw [withTotalsOf, hdedup]
    rfl
  have hsorted : sortByStage (withTotalsOf tps results) = withTotalsOf tps results := by
    refine sortByStage_const s _ ?_
    intro y hy
    rw [hwt] at hy
    rcases List.mem_append.mp hy with hy1 | hy2
    · exact hlo y hy1
    · rw [List.mem_singleton] at hy2
      rw [hy2]
      rfl
  rw [finalOf, totstagesOf_single tps s hne hst hs]
  rw [if_neg (by simp)]
  rw [withUnmappedOf, hunm]
  rw [if_pos (by simp)]
  rw [hsorted, hwt]

/-- C9 (amended): when the distinct stage values together with the "N.A."
sentinel number more than two, the last testpoint after `map_test_results`
is the grand-total pseudo-testpoint (name "N.A.", stage "N.A."), so both
assertions of `get_test_results_summary` succeed and it returns the grand
totals.  When they number exactly two with a single real stage distinct
from "N.A.", the last element is the per-stage total of that stage if the
unmapped bucket is empty — its stage is the real stage, so the stage
assertion fails and the summary is refused — and the unmapped bucket
itself if non-empty, in which case the stage assertion holds but the name
assertion ("Unmapped tests") fails instead. -/
theorem c9_summary_last_testpoint :
    (∀ tps results, 2 < (totstagesOf tps).length →
      (Testplan.map_test_results tps results).testpoints.getLast?
        = some (mkTotalTestpoint "N.A." ((st2Of tps results).totals "N.A."))
      ∧ get_test_results_summary (Testplan.map_test_results tps results)
        = some (((st2Of tps results).totals "N.A.").passing,
            ((st2Of tps results).totals "N.A.").total,
            get_percentage ((st2Of tps results).totals "N.A.").passing
              ((st2Of tps results).totals "N.A.").total))
    ∧ (∀ tps results s, tps ≠ [] → (∀ tp ∈ tps, tp.stage = s) → s ≠ "N.A." →
        (unmappedOf tps results).test_results = [] →
      (Testplan.map_test_results tps results).testpoints.getLast?
        = some (mkTotalTestpoint s ((st2Of tps results).totals s))
      ∧ ((Testplan.map_test_results tps results).testpoints.getLast?).map Testpoint.stage
        = some s
      ∧ get_test_results_summary (Testplan.map_test_results tps results) = none)
    ∧ (∀ tps results s, tps ≠ [] → (∀ tp ∈ tps, tp.stage = s) → s ≠ "N.A." →
        (unmappedOf tps results).test_results ≠ [] →
      (Testplan.map_test_results tps results).testpoints.getLast?
        = some (unmappedOf tps results)
      ∧ get_test_results_summary (Testplan.map_test_results tps results) = none) := by
  refine ⟨?_, ?_, ?_⟩
  · intro tps results hgt
    have hlast : (Testplan.map_test_results tps results).testpoints.getLast?
        = some (mkTotalTestpoint "N.A." ((st2Of tps results).totals "N.A.")) := by
      show (finalOf tps results).getLast? = _
      rw [finalOf, if_pos hgt]
      exact List.getLast?_concat _
    refine ⟨hlast, ?_⟩
    rw [get_test_results_summary, hlast]
    simp [mkTotalTestpoint]
  · intro tps results s hne hst hs hunm
    have hfin := finalOf_single_stage tps results s hne hst hs hunm
    have hlast : (Testplan.map_test_results tps results).testpoints.getLast?
        = some (mkTotalTestpoint s ((st2Of tps results).totals s)) := by
      show (finalOf tps results).getLast? = _
      rw [hfin]
      exact List.getLast?_concat _
    refine ⟨hlast, by rw [hlast]; rfl, ?_⟩
    rw [get_test_results_summary, hlast]
    simp [mkTotalTestpoint, hs]
  · intro tps results s hne hst hs hunm
    have hlast : (Testplan.map_test_results tps results).testpoints.getLast?
        = some (unmappedOf tps results) := by
      show (finalOf tps results).getLast? = _
      rw [finalOf, totstagesOf_single tps s hne hst hs]
      rw [if_neg (by simp)]
      rw [withUnmappedOf, if_neg (by simp [List.isEmpty_iff, hunm])]
      exact List.getLast?_concat _
    refine ⟨hlast, ?_⟩
    rw [get_test_results_summary, hlast]
    simp [unmappedOf]

/-- C9 witness: the more-than-two-stages clause of
`c9_summary_last_testpoint` at the shared-test scenario (stages S1, S2 and
the sentinel), and the two-value clause at the one-stage scenario. -/
theorem c9_summary_last_testpoint_witness :
    get_test_results_summary exShared = some (1, 1, "100%")
    ∧ get_test_results_summary exOneStage = none := by
  constructor
  · have h1 := c9_summary_last_testpoint.1
      [mkTestpoint "TP1" "S1" ["X"], mkTestpoint "TP2" "S2" ["X"]]
      [mkResult "X" 1 1] (by decide)
    rw [show exShared = Testplan.map_test_results
      [mkTestpoint "TP1" "S1" ["X"], mkTestpoint "TP2" "S2" ["X"]]
      [mkResult "X" 1 1] from rfl, h1.2]
    decide
  · have h2 := c9_summary_last_testpoint.2.1 exOneStageTps exOneStageResults "V1"
      (by decide) (by decide) (by decide) (by decide)
    exact h2.2.2

/-- C2 witness: `c2_unmapped_result_invariant` at the concrete unmapped
scenario (one testpoint listing "t1", one result named "Z"). -/
theorem c2_unmapped_result_invariant_witness :
    (Testplan.map_test_results [mkTestpoint "tp1" "V1" ["t1"]]
        [mkResult "Z" 2 3]).unmapped.test_results = [⟨"Z", 2, 3, false⟩]
    ∧ (Testplan.map_test_results [mkTestpoint "tp1" "V1" ["t1"]]
        [mkResult "Z" 2 3]).totals "N.A." = ⟨"**TOTAL**", 2, 3, false⟩ := by
  have hc := c2_unmapped_result_invariant [mkTestpoint "tp1" "V1" ["t1"]] "Z" 2 3
    (by decide)
  exact ⟨hc.1, hc.2.2.2⟩

/-- Model of `Covergroup`: a coverage-model element (name must end in
"_cg"). -/
structure Covergroup where
  name : String
  desc : String
  tags : List String
deriving DecidableEq, Repr

/-- A raw testplan element dictionary as parsed from the document:
`none` models a missing key (`tags` missing is the empty list). -/
structure RawElem where
  name : Option String
  desc : Option String
  stage : Option String
  tests : Option (List String)
  tags : List String
deriving DecidableEq, Repr

/-- Does `pat` end the character list `s`. -/
def isSuffix (pat s : List Char) : Bool := List.isPrefixOf pat.reverse s.reverse

/-- Constructing a `Testpoint` from a raw dictionary (`Element.__init__`
plus `Testpoint.__init__`): name, desc and tests are required, a missing
stage defaults to "N.A.", an empty name fails validation, and
`not_mapped` records `tests == ["N/A"]`.  `none` models the construction
error paths (`KeyError` / `ValueError`, both of which exit). -/
def mkTestpointE (r : RawElem) : Option Testpoint :=
  match r.name, r.desc, r.tests with
  | some n, some d, some ts =>
    if n = "" then none
    else some ⟨n, d, r.stage.getD "N.A.", r.tags, ts, ts == ["N/A"], []⟩
  | _, _, _ => none

/-- Constructing a `Covergroup` from a raw dictionary: name and desc are
required, the name must be non-empty and end with "_cg". -/
def mkCovergroupE (r : RawElem) : Option Covergroup :=
  match r.name, r.desc with
  | some n, some d =>
    if n = "" then none
    else if isSuffix "_cg".data n.data then some ⟨n, d, r.tags⟩ else none
  | _, _ => none

/-- The hard failures of the loader, each a `sys.exit(1)` in the source. -/
inductive LoadError where
  | circularImport
  | outOfFuel
  | badElement
  | duplicateElement
  | emptyTestplan
  | missingName
deriving DecidableEq, Repr

/-- Model of `Testplan._create_testplan_elements` for testpoints
(Testplan.py lines 384-411): construct each element (a construction failure exits),
reject a duplicate name among the already accepted elements, and keep the
element only when it passes the tag filter. -/
def create_testpoints (tags : List String) :
    List RawElem → List Testpoint → List String → Except LoadError (List Testpoint)
  | [], acc, _ => .ok acc
  | r :: rest, acc, names =>
    match mkTestpointE r with
    | none => .error .badElement
    | some item =>
      if memS item.name names then .error .duplicateElement
      else if has_tags item.tags tags then
        create_testpoints tags rest (acc ++ [item]) (names ++ [item.name])
      else create_testpoints tags rest acc names

/-- Model of `Testplan._create_testplan_elements` for covergroups: the
source always passes the empty tag set here, so the filter
`has_tags item.tags []` accepts every element. -/
def create_covergroups :
    List RawElem → List Covergroup → List String → Except LoadError (List Covergroup)
  | [], acc, _ => .ok acc
  | r :: rest, acc, names =>
    match mkCovergroupE r with
    | none => .error .badElement
    | some item =>
      if memS item.name names then .error .duplicateElement
      else if has_tags item.tags [] then
        create_covergroups rest (acc ++ [item]) (names ++ [item.name])
      else create_covergroups rest acc names

/-- A raw testplan document: its name (when present), the paths it imports
(documents are identified by number), its raw element lists, and the
substitution variables among its remaining top-level fields. -/
structure RawDoc where
  name : Option String
  import_testplans : List Nat
  testpoints : List RawElem
  covergroups : List RawElem
  substitutions : Substitutions

/-- One key of the imported document merged into the accumulated
substitutions: absent keys are added, two list values concatenate, and on
a scalar conflict the accumulator ("importer") wins (`_merge_dicts` with
`use_list1_for_defaults`).  A scalar/list type conflict, which the source
exits on, is not modelled (no claim exercises it); the accumulator is kept. -/
def mergeSubsOne (acc : Substitutions) (kv : String × SubstVal) : Substitutions :=
  if memS kv.1 (acc.map Prod.fst) then
    acc.map fun p =>
      if p.1 == kv.1 then
        match p.2, kv.2 with
        | SubstVal.values vs, SubstVal.values ws => (p.1, SubstVal.values (vs ++ ws))
        | _, _ => p
      else p
  else acc ++ [kv]

/-- Model of `_merge_dicts` (Testplan.py lines 1415-1457) on the
structured document: element and import lists concatenate, the
accumulator's name wins when both are set. -/
def merge_docs (a b : RawDoc) : RawDoc :=
  { name := match a.name with
      | some n => some n
      | none => b.name
    import_testplans := a.import_testplans ++ b.import_testplans
    testpoints := a.testpoints ++ b.testpoints
    covergroups := a.covergroups ++ b.covergroups
    substitutions := b.substitutions.foldl mergeSubsOne a.substitutions }

/-- Model of the import traversal of `Testplan._parse_testplan`
(Testplan.py lines 557-579): pop the queue head, fail with the
circular-import error when it was already parsed, record it, enqueue its
imports at the back, and continue; the result is the merge order.  The
Python loop is unbounded; the model spends one unit of fuel per
iteration. -/
def import_loop (docs : Nat → RawDoc) : Nat → List Nat → List Nat → Except LoadError (List Nat)
  | 0, _, _ => .error .outOfFuel
  | _ + 1, [], _ => .ok []
  | fuel + 1, t :: q, parsed =>
    if memN t parsed then .error .circularImport
    else
      match import_loop docs fuel (q ++ (docs t).import_testplans) (t :: parsed) with
      | .ok order => .ok (t :: order)
      | .error e => .error e

/-- Stable insertion by covergroup name. -/
def insertByName (x : Covergroup) : List Covergroup → List Covergroup
  | [] => [x]
  | y :: ys => if charListLt y.name.data x.name.data then y :: insertByName x ys else x :: y :: ys

/-- Stable sort of covergroups by name (`Testplan._sort`). -/
def sortByName : List Covergroup → List Covergroup
  | [] => []
  | x :: xs => insertByName x (sortByName xs)

/-- The loaded testplan: its name and the sorted element lists. -/
structure ParsedPlan where
  name : String
  testpoints : List Testpoint
  covergroups : List Covergroup
deriving DecidableEq, Repr

/-- Model of `Testplan._parse_testplan` (Testplan.py lines 542-601)
followed by the name check of `Testplan.__init__`: traverse and merge
the import graph (circular imports fail hard inside the loop,
before any element is constructed), then build the testpoint elements
under the tag filter and the covergroup elements with the empty filter,
fail when the merged document lists no testpoints and no covergroups,
apply the wildcard substitutions to the testpoints, sort, and finally fail
when no name was set.  (In the source the document's `name` key is also
available as a substitution variable; no claim depends on that.) -/
def parse_testplan (docs : Nat → RawDoc) (root : RawDoc) (tags : List String)
    (fuel : Nat) : Except LoadError ParsedPlan :=
  match import_loop docs fuel root.import_testplans [] with
  | .error e => .error e
  | .ok order =>
    let obj := order.foldl (fun acc i => merge_docs acc (docs i)) root
    match create_testpoints tags obj.testpoints [] [] with
    | .error e => .error e
    | .ok tps =>
      match create_covergroups obj.covergroups [] [] with
      | .error e => .error e
      | .ok cgs =>
        if obj.testpoints.isEmpty && obj.covergroups.isEmpty then .error .emptyTestplan
        else
          let tps2 := tps.map fun tp =>
            { tp with tests := do_substitutions obj.substitutions tp.tests }
          match obj.name with
          | none => .error .missingName
          | some nm => .ok ⟨nm, sortByStage tps2, sortByName cgs⟩

/-- Reachability along import edges. -/
inductive Reach (docs : Nat → RawDoc) : Nat → Nat → Prop where
  | refl (d : Nat) : Reach docs d d
  | step {d i e : Nat} : i ∈ (docs d).import_testplans → Reach docs i e → Reach docs d e

/-- The import graph below `root` contains a cycle: some document
reachable from the root's imports imports itself back (directly or
transitively). -/
def HasCycleFrom (docs : Nat → RawDoc) (root : RawDoc) : Prop :=
  ∃ c r, r ∈ root.import_testplans ∧ Reach docs r c
    ∧ ∃ i, i ∈ (docs c).import_testplans ∧ Reach docs i c

/-- Every document of the list has all its imports further to the right:
the shape a successful traversal's merge order necessarily has. -/
def ForwardList (docs : Nat → RawDoc) : List Nat → Prop
  | [] => True
  | d :: rest => (∀ i ∈ (docs d).import_testplans, i ∈ rest) ∧ ForwardList docs rest

lemma import_loop_ok_forward (docs : Nat → RawDoc) (fuel : Nat) :
    ∀ (queue parsed order : List Nat),
    import_loop docs fuel queue parsed = .ok order →
    ForwardList docs order ∧ ∀ x ∈ queue, x ∈ order := by
  induction fuel with
  | zero =>
    intro queue parsed order h
    exact absurd h (by rw [import_loop]; simp)
  | succ fuel ih =>
    intro queue parsed order h
    cases queue with
    | nil =>
      rw [import_loop] at h
      obtain rfl : ([] : List Nat) = order := by
        simpa using h
      exact ⟨trivial, by simp⟩
    | cons t q =>
      rw [import_loop] at h
      split at h
      · exact absurd h (by simp)
      · cases hrec : import_loop docs fuel (q ++ (docs t).import_testplans) (t :: parsed) with
        | error e =>
          rw [hrec] at h
          exact absurd h (by simp)
        | ok order2 =>
          rw [hrec] at h
          simp only at h
          obtain rfl : t :: order2 = order := by
            simpa using h
          obtain ⟨hfw, hq⟩ := ih _ _ _ hrec
          refine ⟨⟨?_, hfw⟩, ?_⟩
          · intro i hi
            exact hq i (List.mem_append.mpr (Or.inr hi))
          · intro x hx
            rcases List.mem_cons.mp hx with hx1 | hx2
            · exact hx1 ▸ List.mem_cons_self _ _
            · exact List.mem_cons_of_mem _ (hq x (List.mem_append.mpr (Or.inl hx2)))

lemma forward_imports_mem (docs : Nat → RawDoc) (l : List Nat)
    (hf : ForwardList docs l) :
    ∀ d ∈ l, ∀ i ∈ (docs d).import_testplans, i ∈ l := by
  induction l with
  | nil => intro d hd; simp at hd
  | cons x rest ih =>
    intro d hd i hi
    rcases List.mem_cons.mp hd with h1 | h2
    · subst h1
      exact List.mem_cons_of_mem _ (hf.1 i hi)
    · exact List.mem_cons_of_mem _ (ih hf.2 d h2 i hi)

lemma forward_reach_mem (docs : Nat → RawDoc) (l : List Nat)
    (hf : ForwardList docs l) (d e : Nat) (hd : d ∈ l) (hr : Reach docs d e) :
    e ∈ l := by
  induction hr with
  | refl => exact hd
  | step hi _ ih2 => exact ih2 (forward_imports_mem docs l hf _ hd _ hi)

lemma forward_no_cycle (docs : Nat → RawDoc) (l : List Nat)
    (hf : ForwardList docs l) :
    ∀ d ∈ l, ∀ i ∈ (docs d).import_testplans, ¬ Reach docs i d := by
  induction l with
  | nil => intro d hd; simp at hd
  | cons x rest ih =>
    intro d hd i hi hr
    rcases List.mem_cons.mp hd with h1 | h2
    · subst h1
      have hirest : i ∈ rest := hf.1 i hi
      have hdrest : d ∈ rest := forward_reach_mem docs rest hf.2 i d hirest hr
      exact ih hf.2 d hdrest i hi hr
    · exact ih hf.2 d h2 i hi hr

/-- A document importing nothing and declaring nothing. -/
def emptyRawDoc : RawDoc := ⟨none, [], [], [], []⟩

/-- Root document of the mutual-import example: imports document 1 and
declares one perfectly valid testpoint. -/
def docA : RawDoc :=
  ⟨some "A", [1], [⟨some "tpA", some "a testpoint", some "V1", some ["t1"], []⟩], [], []⟩

/-- Document 1 of the mutual-import example: imports document 0 back and
declares an invalid element (missing name) whose construction would fail —
the circular-import failure is reported instead, showing the traversal
fails before any element construction. -/
def docB : RawDoc := ⟨some "B", [0], [⟨none, some "bad", none, some [], []⟩], [], []⟩

/-- The two mutually importing documents. -/
def docsMutual : Nat → RawDoc :=
  fun n => if n = 0 then docA else if n = 1 then docB else emptyRawDoc

/-- Root of the transitive three-cycle example. -/
def docT0 : RawDoc :=
  ⟨some "T0", [1], [⟨some "tpT", some "a testpoint", none, some ["t2"], []⟩], [], []⟩

/-- The three documents importing each other in a cycle 0 → 1 → 2 → 0. -/
def docsTriple : Nat → RawDoc :=
  fun n =>
    if n = 0 then docT0
    else if n = 1 then ⟨none, [2], [], [], []⟩
    else if n = 2 then ⟨none, [0], [], [], []⟩
    else emptyRawDoc

/-- C8 (confirmed): loading a testplan whose import graph reaches a cycle
can never succeed — for any fuel the loader does not return a plan — and
on the concrete mutual-import and transitive three-cycle examples it
fails with precisely the circular-import error, raised inside the
traversal before any element is constructed (document 1 of the mutual
example even carries an element whose construction would fail with a
different error, which is never reached). -/
theorem c8_circular_import_detected :
    (∀ (docs : Nat → RawDoc) (root : RawDoc) (tags : List String) (fuel : Nat)
        (plan : ParsedPlan), HasCycleFrom docs root →
      parse_testplan docs root tags fuel ≠ .ok plan)
    ∧ parse_testplan docsMutual docA [] 10 = .error .circularImport
    ∧ parse_testplan docsTriple docT0 [] 10 = .error .circularImport := by
  refine ⟨?_, by rfl, by rfl⟩
  intro docs root tags fuel plan hcyc hok
  rw [parse_testplan] at hok
  cases hloop : import_loop docs fuel root.import_testplans [] with
  | error e =>
    rw [hloop] at hok
    exact absurd hok (by simp)
  | ok order =>
    rw [hloop] at hok
    obtain ⟨hfw, hq⟩ := import_loop_ok_forward docs fuel _ _ _ hloop
    obtain ⟨c, r, hr, hreach, i, hi, hri⟩ := hcyc
    have hrord : r ∈ order := hq r hr
    have hcord : c ∈ order := forward_reach_mem docs order hfw r c hrord hreach
    exact forward_no_cycle docs order hfw c hcord i hi hri

/-- C8 witness: `c8_circular_import_detected` applied to the concrete
mutually importing documents, whose cycle is exhibited explicitly. -/
theorem c8_circular_import_detected_witness :
    parse_testplan docsMutual docA [] 10 ≠ .ok ⟨"A", [], []⟩ :=
  c8_circular_import_detected.1 docsMutual docA [] 10 ⟨"A", [], []⟩
    ⟨1, 1, by decide, Reach.refl 1, 0, by decide, Reach.step (by decide) (Reach.refl 1)⟩

/-- C10 (confirmed): the covergroup list of a successfully loaded testplan
does not depend on the requested tag filter — covergroups are created with
the empty filter — so two successful loads of the same documents under any
two tag sets produce identical covergroup lists. -/
theorem c10_covergroups_tag_independent (docs : Nat → RawDoc) (root : RawDoc)
    (fuel : Nat) (tags1 tags2 : List String) (p1 p2 : ParsedPlan)
    (h1 : parse_testplan docs root tags1 fuel = .ok p1)
    (h2 : parse_testplan docs root tags2 fuel = .ok p2) :
    p1.covergroups = p2.covergroups := by
  rw [parse_testplan] at h1 h2
  cases hloop : import_loop docs fuel root.import_testplans [] with
  | error e =>
    rw [hloop] at h1
    exact absurd h1 (by simp)
  | ok order =>
    rw [hloop] at h1 h2
    simp only at h1 h2
    cases hct1 : create_testpoints tags1
        (order.foldl (fun acc i => merge_docs acc (docs i)) root).testpoints [] [] with
    | error e =>
      rw [hct1] at h1
      exact absurd h1 (by simp)
    | ok tps1 =>
      rw [hct1] at h1
      cases hct2 : create_testpoints tags2
          (order.foldl (fun acc i => merge_docs acc (docs i)) root).testpoints [] [] with
      | error e =>
        rw [hct2] at h2
        exact absurd h2 (by simp)
      | ok tps2 =>
        rw [hct2] at h2
        cases hcg : create_covergroups
            (order.foldl (fun acc i => merge_docs acc (docs i)) root).covergroups [] [] with
        | error e =>
          rw [hcg] at h1
          exact absurd h1 (by simp)
        | ok cgs =>
          rw [hcg] at h1 h2
          simp only at h1 h2
          split at h1
          · exact absurd h1 (by simp)
          · split at h2
            · exact absurd h2 (by simp)
            · cases hnm : (order.foldl (fun acc i => merge_docs acc (docs i)) root).name with
              | none =>
                rw [hnm] at h1
                exact absurd h1 (by simp)
              | some nm =>
                rw [hnm] at h1 h2
                have e1 : p1.covergroups = sortByName cgs := by
                  have := Except.ok.inj h1
                  rw [← this]
                have e2 : p2.covergroups = sortByName cgs := by
                  have := Except.ok.inj h2
                  rw [← this]
                rw [e1, e2]

/-- C10 witness: two loads of the same single document under the empty tag
set and under an excluding tag set produce the same covergroups, by
`c10_covergroups_tag_independent`. -/
theorem c10_covergroups_tag_independent_witness :
    (⟨"R", [⟨"tp", "a testpoint", "N.A.", ["fast"], ["t"], false, []⟩],
        [⟨"foo_cg", "cg", ["slow"]⟩]⟩ : ParsedPlan).covergroups
      = (⟨"R", [],
        [⟨"foo_cg", "cg", ["slow"]⟩]⟩ : ParsedPlan).covergroups := by
  have h := c10_covergroups_tag_independent (fun _ => emptyRawDoc)
    ⟨some "R", [],
      [⟨some "tp", some "a testpoint", none, some ["t"], ["fast"]⟩],
      [⟨some "foo_cg", some "cg", none, none, ["slow"]⟩], []⟩
    5 [] ["-fast"]
    ⟨"R", [⟨"tp", "a testpoint", "N.A.", ["fast"], ["t"], false, []⟩],
      [⟨"foo_cg", "cg", ["slow"]⟩]⟩
    ⟨"R", [], [⟨"foo_cg", "cg", ["slow"]⟩]⟩
    (by rfl) (by rfl)
  exact h

end Testplanner
